import Mathlib

/-!
Verification of the free-text film-title parser in `src/preprocess_sheet.py`.

Python strings are modelled as `List Char` (ASCII fragment of Python
semantics: case mapping, `str.isupper`, `\s`, `\d` follow the ASCII rules,
which is what every claim and every concrete input in this development
exercises).  Regex searches are modelled as explicit left-to-right scans;
for every pattern appearing in the source the leading greedy `\s*` or
`\s+` element is followed by a mandatory non-whitespace character, so a
per-position check that first consumes the maximal whitespace run is
exactly the leftmost-match semantics of `re.search` and `re.sub`.

Loops of the source that are not structurally recursive are written with
an explicit fuel argument; the wrapper passes a fuel that is provably
sufficient (each call consumes the stated amount of input), so the
wrapped function is total and computes the same fixpoint as the Python
loop on every input.
-/

namespace FilmPlanner

/-- Python strings, modelled as lists of characters. -/
abbrev Str := List Char

/-- The whitespace characters of Python `str.strip` and of regex `\s`
(ASCII fragment). -/
def isSpaceA (c : Char) : Bool :=
  c = ' ' || c = '\t' || c = '\n' || c = '\r' || c = '\x0b' || c = '\x0c'

/-- ASCII case mapping used by Python `str.upper` (table form, so that
facts about it are provable by case analysis). -/
def toUpperA (c : Char) : Char :=
  match c with
  | 'a' => 'A' | 'b' => 'B' | 'c' => 'C' | 'd' => 'D' | 'e' => 'E'
  | 'f' => 'F' | 'g' => 'G' | 'h' => 'H' | 'i' => 'I' | 'j' => 'J'
  | 'k' => 'K' | 'l' => 'L' | 'm' => 'M' | 'n' => 'N' | 'o' => 'O'
  | 'p' => 'P' | 'q' => 'Q' | 'r' => 'R' | 's' => 'S' | 't' => 'T'
  | 'u' => 'U' | 'v' => 'V' | 'w' => 'W' | 'x' => 'X' | 'y' => 'Y'
  | 'z' => 'Z' | other => other

/-- ASCII case mapping used by Python `str.lower` (table form). -/
def toLowerA (c : Char) : Char :=
  match c with
  | 'A' => 'a' | 'B' => 'b' | 'C' => 'c' | 'D' => 'd' | 'E' => 'e'
  | 'F' => 'f' | 'G' => 'g' | 'H' => 'h' | 'I' => 'i' | 'J' => 'j'
  | 'K' => 'k' | 'L' => 'l' | 'M' => 'm' | 'N' => 'n' | 'O' => 'o'
  | 'P' => 'p' | 'Q' => 'q' | 'R' => 'r' | 'S' => 's' | 'T' => 't'
  | 'U' => 'u' | 'V' => 'v' | 'W' => 'w' | 'X' => 'x' | 'Y' => 'y'
  | 'Z' => 'z' | other => other

/-- Python `str.lstrip()`. -/
def pyLstrip (s : Str) : Str := s.dropWhile isSpaceA

/-- Python `str.rstrip()`. -/
def pyRstrip (s : Str) : Str := (s.reverse.dropWhile isSpaceA).reverse

/-- Python `str.strip()`. -/
def pyStrip (s : Str) : Str := pyRstrip (pyLstrip s)

/-- Python `str.rstrip(chars)`: remove the trailing run of characters
drawn from `set`. -/
def pyRstripSet (set : Str) (s : Str) : Str :=
  (s.reverse.dropWhile (fun c => set.contains c)).reverse

/-- Python `str.upper()` (ASCII). -/
def pyUpper (s : Str) : Str := s.map toUpperA

/-- Python `str.lower()` (ASCII). -/
def pyLower (s : Str) : Str := s.map toLowerA

/-- Python `str.isupper()` (ASCII): at least one cased character and no
lowercase character. -/
def pyIsUpper (s : Str) : Bool :=
  s.any (fun c => c.isUpper || c.isLower) && s.all (fun c => !c.isLower)

/-- Python `word.capitalize()` (ASCII): first character uppercased, the
rest lowercased. -/
def capitalizeWord (w : Str) : Str :=
  match w with
  | [] => []
  | c :: cs => toUpperA c :: cs.map toLowerA

/-- Python `' '.join(parts)`. -/
def joinSp : List Str → Str
  | [] => []
  | [w] => w
  | w :: ws => w ++ ' ' :: joinSp ws

/-- Python `str.split()` with no argument: split on whitespace runs,
dropping empty words.  Fuel variant; each recursive call consumes at
least one character, so `s.length` fuel is always enough. -/
def pySplitWsF : Nat → Str → List Str
  | 0, _ => []
  | fuel + 1, s =>
    match s.dropWhile isSpaceA with
    | [] => []
    | c :: cs =>
      (c :: cs).takeWhile (fun x => !isSpaceA x) ::
        pySplitWsF fuel ((c :: cs).dropWhile (fun x => !isSpaceA x))

/-- Python `str.split()` with no argument. -/
def pySplitWs (s : Str) : List Str := pySplitWsF s.length s

/-! Section: The source functions of `src/preprocess_sheet.py` -/

/-- The fixed prefix list of `remove_prefix` (lines 32-42). -/
def prefixes : List Str :=
  [("FILM : DOCU:"), ("FILM: DOCU:"), ("TV series:"), ("TV SERIES:"),
   ("FILM :"), ("FILM:"), ("TV:"), ("Film:"), ("TV :")].map String.data

/-- The for-loop with break of `remove_prefix` (lines 45-48): try the
prefixes in list order, strip the first case-insensitive match and stop. -/
def removeLabelLoop : List Str → Str → Str
  | [], tc => tc
  | p :: ps, tc =>
    if (pyUpper p).isPrefixOf (pyUpper tc) then pyStrip (tc.drop p.length)
    else removeLabelLoop ps tc

/-- The function remove_prefix of the source (lines 30-50; renamed for Lean). -/
def removeLabel (title : Str) : Str := removeLabelLoop prefixes (pyStrip title)

/-- One attempt of the pattern `\((\d{4})\)` at the head of the text:
an opening parenthesis, four digits, a closing parenthesis. -/
def yearParenAt (s : Str) : Option Str :=
  match s with
  | '(' :: d1 :: d2 :: d3 :: d4 :: ')' :: _ =>
    if d1.isDigit && d2.isDigit && d3.isDigit && d4.isDigit then
      some [d1, d2, d3, d4]
    else none
  | _ => none

/-- Models `re.search(r'\((\d{4})\)', text).group(1)`: the leftmost
parenthesised four-digit group. -/
def findParenYear : Str → Option Str
  | [] => none
  | c :: cs =>
    match yearParenAt (c :: cs) with
    | some y => some y
    | none => findParenYear cs

/-- Models `re.match(r'^(\d{4})\s', text).group(1)`: four digits at the very
start followed by a whitespace character. -/
def leadingYear (s : Str) : Option Str :=
  match s with
  | d1 :: d2 :: d3 :: d4 :: c :: _ =>
    if d1.isDigit && d2.isDigit && d3.isDigit && d4.isDigit && isSpaceA c then
      some [d1, d2, d3, d4]
    else none
  | _ => none

/-- The function extract_year of the source (lines 15-27): the parenthesised form is searched
first, the bare leading form only if that fails. -/
def extract_year (text : Str) : Option Str :=
  match findParenYear text with
  | some y => some y
  | none => leadingYear text

/-- One attempt of `\s*\(\d{4}\)\s*` at the head of the text: maximal
whitespace, a parenthesised four-digit group, maximal trailing
whitespace.  Returns the remainder after the match.  (The pattern
elements after `\s*` start with non-whitespace characters, so the
maximal-run reading is the regex reading.) -/
def yearParenWsAt (s : Str) : Option Str :=
  match s.dropWhile isSpaceA with
  | '(' :: d1 :: d2 :: d3 :: d4 :: ')' :: rest =>
    if d1.isDigit && d2.isDigit && d3.isDigit && d4.isDigit then
      some (rest.dropWhile isSpaceA)
    else none
  | _ => none

/-- Models `re.sub(r'\s*\(\d{4}\)\s*', ' ', text)` (line 72): every
non-overlapping leftmost match is replaced by a single space.  Fuel
variant; each recursive call consumes at least one character of `s`, so
`s.length` fuel is always enough. -/
def subYearParenF : Nat → Str → Str
  | 0, s => s
  | _ + 1, [] => []
  | fuel + 1, c :: cs =>
    match yearParenWsAt (c :: cs) with
    | some rest => ' ' :: subYearParenF fuel rest
    | none => c :: subYearParenF fuel cs

/-- Models `re.sub(r'\s*\(\d{4}\)\s*', ' ', text)` (line 72). -/
def subYearParen (s : Str) : Str := subYearParenF s.length s

/-- Models `re.sub(r'^\d{4}\s+', '', text)` (line 74): a bare four-digit year
at the start, together with the whitespace run after it, is removed
(the anchor `^` matches only at the start, so at most once). -/
def subLeadingYear (s : Str) : Str :=
  match s with
  | d1 :: d2 :: d3 :: d4 :: rest =>
    if d1.isDigit && d2.isDigit && d3.isDigit && d4.isDigit
        && !(rest.takeWhile isSpaceA).isEmpty then
      rest.dropWhile isSpaceA
    else s
  | _ => s

/-- Lines 70-74 of `extract_clean_title`: the year markers are removed
only when `extract_year` found a year. -/
def removeYearText (year : Option Str) (text : Str) : Str :=
  match year with
  | some _ => subLeadingYear (subYearParen text)
  | none => text

/-- One attempt of `\s*\(([^)]+)\)\s*` at the head of the text: maximal
whitespace, an opening parenthesis, at least one character up to the
first closing parenthesis, that closing parenthesis, maximal trailing
whitespace.  Returns the length of the match and the inner group. -/
def parenMatchAt (s : Str) : Option (Nat × Str) :=
  let w := s.takeWhile isSpaceA
  match s.dropWhile isSpaceA with
  | '(' :: r2 =>
    let content := r2.takeWhile (fun c => c ≠ ')')
    match r2.dropWhile (fun c => c ≠ ')') with
    | ')' :: r4 =>
      if content.isEmpty then none
      else some (w.length + 1 + content.length + 1 +
                   (r4.takeWhile isSpaceA).length, content)
    | _ => none
  | _ => none

/-- Models `re.search(r'\s*\(([^)]+)\)\s*', text)` (line 79): the leftmost
match, as (start position, match length, inner group). -/
def findParen : Str → Option (Nat × Nat × Str)
  | [] => none
  | c :: cs =>
    match parenMatchAt (c :: cs) with
    | some (len, content) => some (0, len, content)
    | none =>
      match findParen cs with
      | some (i, len, content) => some (i + 1, len, content)
      | none => none

/-- The `while True` loop of lines 78-87: repeatedly remove the leftmost
parenthetical group, replacing it by a single space, and append its
stripped inner content (re-wrapped in parentheses) to the notes list
when that content is non-empty.  Fuel variant; every iteration shortens
the text by at least two characters, so `length + 1` fuel is always
enough. -/
def parenLoopF : Nat → Str → List Str → Str × List Str
  | 0, text, notes => (text, notes)
  | fuel + 1, text, notes =>
    match findParen text with
    | some (i, len, content) =>
      let c := pyStrip content
      parenLoopF fuel (text.take i ++ ' ' :: text.drop (i + len))
        (if c.isEmpty then notes else notes ++ ['(' :: c ++ [')']])
    | none => (text, notes)

/-- The parenthetical-extraction loop of lines 78-87. -/
def parenLoop (text : Str) (notes : List Str) : Str × List Str :=
  parenLoopF (text.length + 1) text notes

/-- The pattern `(https?://|www\.)` at the head of the text. -/
def urlAt (s : Str) : Bool :=
  (("http://").data).isPrefixOf s || (("https://").data).isPrefixOf s ||
    (("www.").data).isPrefixOf s

/-- Generic leftmost search: the first position whose suffix satisfies
`p` (all patterns searched this way match at least one character, so the
empty suffix never needs to be tried). -/
def findPos (p : Str → Bool) : Str → Option Nat
  | [] => none
  | c :: cs => if p (c :: cs) then some 0 else (findPos p cs).map (· + 1)

/-- The keyword alternatives of the comma pattern (line 106). -/
def commaKeywords : List Str :=
  [("recommended"), ("film"), ("recom"), ("Amazon"), ("Netflix"),
   ("IMDb")].map String.data

/-- The pattern `,\s+(?:[a-z]|recommended|film|recom|Amazon|Netflix|IMDb)`
at the head of the text (line 106). -/
def commaMarkerAt (s : Str) : Bool :=
  match s with
  | ',' :: rest =>
    let r := rest.dropWhile isSpaceA
    !(rest.takeWhile isSpaceA).isEmpty &&
      ((match r.head? with | some c => c.isLower | none => false) ||
        commaKeywords.any (fun k => k.isPrefixOf r))
  | _ => false

/-- The keyword alternatives of the dash pattern (line 114). -/
def dashKeywords : List Str :=
  [("recommended"), ("film"), ("precursor"), ("political"), ("https"),
   ("www"), ("IMDb")].map String.data

/-- The pattern
`\s+-\s+(?:[a-z]|[A-Z]{2}|recommended|film|precursor|political|https|www|IMDb)`
at the head of the text (line 114). -/
def dashMarkerAt (s : Str) : Bool :=
  !(s.takeWhile isSpaceA).isEmpty &&
    (match s.dropWhile isSpaceA with
     | '-' :: r2 =>
       let r3 := r2.dropWhile isSpaceA
       !(r2.takeWhile isSpaceA).isEmpty &&
         ((match r3.head? with | some c => c.isLower | none => false) ||
           (match r3 with
            | c1 :: c2 :: _ => c1.isUpper && c2.isUpper
            | _ => false) ||
           dashKeywords.any (fun k => k.isPrefixOf r3))
     | _ => false)

/-- Lines 95-117 of `extract_clean_title`: the three marker searches.
`title_end` takes the minimum of the matching start offsets, while
`notes_start` is overwritten by each matching search in turn (URL, then
comma, then dash), exactly as in the source. -/
def stage4 (text : Str) : Nat × Nat :=
  let te0 := text.length
  let ns0 := text.length
  let (te1, ns1) :=
    match findPos urlAt text with
    | some i => (min te0 i, i)
    | none => (te0, ns0)
  let (te2, ns2) :=
    match findPos commaMarkerAt text with
    | some i => (min te1 i, i)
    | none => (te1, ns1)
  match findPos dashMarkerAt text with
  | some i => (min te2 i, i)
  | none => (te2, ns2)

/-- Lines 120 and 130-142 of `extract_clean_title`: strip the slice,
remove trailing spaces, commas and dashes, collapse whitespace runs,
and re-case the words unless the string is all-uppercase. -/
def normalizeTitle (candidate : Str) : Str :=
  let ct0 := pyStrip candidate
  let ct1 := pyRstripSet [' ', ',', '-'] ct0
  let ct2 := joinSp (pySplitWs ct1)
  if !ct2.isEmpty && !pyIsUpper ct2 then
    joinSp ((pySplitWs ct2).map
      (fun w => if 2 < w.length then capitalizeWord w else pyLower w))
  else ct2

/-- Stages 1-3 of `extract_clean_title` (lines 60-87): prefix removal,
year extraction and removal, parenthetical extraction. -/
def stage123 (raw_title : Str) : Str × Option Str × List Str :=
  let text0 := removeLabel raw_title
  let year := extract_year text0
  let text1 := removeYearText year text0
  let (text2, notes1) := parenLoop text1 []
  (text2, year, notes1)

/-- The main function extract_clean_title of the source (lines 53-144). -/
def extract_clean_title (raw_title : Str) : Str × Option Str × Str :=
  let r := stage123 raw_title
  let text2 := r.1
  let year := r.2.1
  let notes1 := r.2.2
  let s4 := stage4 text2
  let clean := normalizeTitle (text2.take s4.1)
  let remaining := pyStrip (text2.drop s4.2)
  let notes := joinSp (if remaining.isEmpty then notes1 else notes1 ++ [remaining])
  (clean, year, notes)

/-- The title candidate of stage 4: the text before `title_end`. -/
def titleCandidate (raw_title : Str) : Str :=
  (stage123 raw_title).1.take (stage4 (stage123 raw_title).1).1

/-! Section: Further definitions used by the statements -/

/-- Word lists whose words are non-empty and whitespace-free. -/
def GoodWords (l : List Str) : Prop :=
  ∀ w ∈ l, w ≠ [] ∧ ∀ c ∈ w, isSpaceA c = false

/-- Modelled from the spec wording of stage 5: collapse every internal
whitespace run to a single space (written as a direct character walk, to
be compared with the split-and-join of the code).  Fuel variant; each
recursive call consumes at least one character. -/
def specCollapseF : Nat → Str → Str
  | 0, _ => []
  | _ + 1, [] => []
  | fuel + 1, c :: cs =>
    if isSpaceA c then
      match cs.dropWhile isSpaceA with
      | [] => []
      | d :: ds => ' ' :: specCollapseF fuel (d :: ds)
    else c :: specCollapseF fuel cs

/-- Collapse internal whitespace runs to single spaces and trim both
ends (the spec wording of stage 5). -/
def specCollapse (s : Str) : Str :=
  specCollapseF s.length (s.dropWhile isSpaceA)

/-- Modelled from the spec wording of stage 5 (title normalization):
trim, strip trailing space, comma and dash characters, collapse
whitespace runs, then capitalize each word longer than two characters
and lowercase the others, unless the whole string is entirely uppercase,
which is preserved verbatim. -/
def specNormalize (candidate : Str) : Str :=
  let t := specCollapse (pyRstripSet [' ', ',', '-'] (pyStrip candidate))
  if pyIsUpper t then t
  else joinSp ((pySplitWs t).map
    (fun w => if 2 < w.length then capitalizeWord w else pyLower w))

/-- The apostrophe character (kept out of string literals). -/
def apos : Char := Char.ofNat 39

/-- The raw input of the multi-parenthetical example in section 8 of the
spec. -/
def c3Input : Str :=
  ("Film: Docu: Title (Director").data ++ apos ::
    ("s Cut) (2001), recommended by Jo").data

/-- The parenthetical note produced for that input. -/
def c3ParenNote : Str :=
  ("(Director").data ++ apos :: ("s Cut)").data

/-! Section: Generic list helpers -/

theorem dropWhile_head_not {α : Type} {p : α → Bool} :
    ∀ {l : List α} {c : α} {cs : List α}, l.dropWhile p = c :: cs → p c = false := by
  intro l
  induction l with
  | nil => intro c cs h; simp at h
  | cons a l ih =>
    intro c cs h
    by_cases hp : p a
    · rw [List.dropWhile_cons_of_pos hp] at h; exact ih h
    · rw [List.dropWhile_cons_of_neg hp] at h
      cases h
      simpa using hp

theorem len_dropWhile_le {α : Type} {p : α → Bool} :
    ∀ l : List α, (l.dropWhile p).length ≤ l.length := by
  intro l
  induction l with
  | nil => simp
  | cons a l ih =>
    by_cases hp : p a
    · rw [List.dropWhile_cons_of_pos hp]; exact Nat.le_succ_of_le ih
    · rw [List.dropWhile_cons_of_neg hp]

theorem len_take_drop_while {α : Type} {p : α → Bool} (l : List α) :
    (l.takeWhile p).length + (l.dropWhile p).length = l.length := by
  conv_rhs => rw [← List.takeWhile_append_dropWhile p l]
  rw [List.length_append]

theorem mem_dropWhile_of_not {α : Type} {p : α → Bool} {c : α} {l : List α}
    (hc : c ∈ l) (hp : p c = false) : c ∈ l.dropWhile p := by
  have := List.takeWhile_append_dropWhile p l
  rw [← this] at hc
  rcases List.mem_append.1 hc with h | h
  · exact absurd (List.mem_takeWhile_imp h) (by simp [hp])
  · exact h

theorem dropWhile_eq_drop {α : Type} {p : α → Bool} :
    ∀ l : List α, l.dropWhile p = l.drop (l.takeWhile p).length := by
  intro l
  induction l with
  | nil => simp
  | cons a l ih =>
    by_cases hp : p a
    · rw [List.dropWhile_cons_of_pos hp, List.takeWhile_cons_of_pos hp]
      simpa using ih
    · rw [List.dropWhile_cons_of_neg hp, List.takeWhile_cons_of_neg hp]
      simp

/-! Section: Character facts -/

theorem isSpaceA_toUpperA (c : Char) : isSpaceA (toUpperA c) = isSpaceA c := by
  unfold toUpperA
  split <;> rfl

theorem isSpaceA_toLowerA (c : Char) : isSpaceA (toLowerA c) = isSpaceA c := by
  unfold toLowerA
  split <;> rfl

theorem digit_not_space {c : Char} (h : c.isDigit = true) : c ≠ ' ' := by
  intro hc
  subst hc
  simp [Char.isDigit] at h

/-! Section: Facts about pySplitWs and joinSp -/

theorem pySplitWsF_nil : ∀ f, pySplitWsF f [] = [] := by
  intro f; cases f <;> simp [pySplitWsF]

theorem goodWords_pySplitWsF : ∀ (f : Nat) (s : Str), GoodWords (pySplitWsF f s) := by
  intro f
  induction f with
  | zero => intro s; intro w hw; simp [pySplitWsF] at hw
  | succ f ih =>
    intro s w hw
    unfold pySplitWsF at hw
    rcases hd : s.dropWhile isSpaceA with _ | ⟨c, cs⟩ <;> rw [hd] at hw
    · simp at hw
    · rcases List.mem_cons.1 hw with h1 | h2
      · subst h1
        have hc : isSpaceA c = false := dropWhile_head_not hd
        refine ⟨?_, ?_⟩
        · rw [List.takeWhile_cons_of_pos (by simp [hc])]; simp
        · intro x hx
          have := List.mem_takeWhile_imp hx
          simpa using this
      · exact ih _ w h2

theorem pySplitWsF_fuel :
    ∀ (f g : Nat) (s : Str), s.length ≤ f → s.length ≤ g →
      pySplitWsF f s = pySplitWsF g s := by
  intro f
  induction f with
  | zero =>
    intro g s hf _
    have hs : s = [] := List.eq_nil_of_length_eq_zero (Nat.le_zero.1 hf)
    subst hs
    simp [pySplitWsF_nil]
  | succ f ih =>
    intro g s hf hg
    cases g with
    | zero =>
      have hs : s = [] := List.eq_nil_of_length_eq_zero (Nat.le_zero.1 hg)
      subst hs
      simp [pySplitWsF_nil]
    | succ g =>
      show pySplitWsF (f + 1) s = pySplitWsF (g + 1) s
      unfold pySplitWsF
      rcases hd : s.dropWhile isSpaceA with _ | ⟨c, cs⟩
      · rfl
      · have hlen : (c :: cs).length ≤ s.length := by
          rw [← hd]; exact len_dropWhile_le s
        have hc : isSpaceA c = false := dropWhile_head_not hd
        have hrest : ((c :: cs).dropWhile (fun x => !isSpaceA x)).length < (c :: cs).length := by
          rw [List.dropWhile_cons_of_pos (by simp [hc])]
          exact Nat.lt_succ_of_le (len_dropWhile_le cs)
        have h1 : ((c :: cs).dropWhile (fun x => !isSpaceA x)).length ≤ f := by
          simp only [List.length_cons] at hlen hrest; omega
        have h2 : ((c :: cs).dropWhile (fun x => !isSpaceA x)).length ≤ g := by
          simp only [List.length_cons] at hlen hrest; omega
        dsimp only
        rw [ih g _ h1 h2]

theorem pySplitWs_ne_nil {s : Str} {c : Char} (hc : c ∈ s) (hsp : isSpaceA c = false) :
    pySplitWs s ≠ [] := by
  have hne : s.dropWhile isSpaceA ≠ [] := by
    intro h
    have hmem := mem_dropWhile_of_not hc hsp
    rw [h] at hmem
    simp at hmem
  unfold pySplitWs
  cases hf : s.length with
  | zero =>
    have hs : s = [] := List.eq_nil_of_length_eq_zero hf
    subst hs; simp at hc
  | succ n =>
    unfold pySplitWsF
    rcases hd : s.dropWhile isSpaceA with _ | ⟨a, as⟩
    · exact absurd hd hne
    · simp

theorem joinSp_ne_nil {w : Str} {ws : List Str} (hw : w ≠ []) : joinSp (w :: ws) ≠ [] := by
  cases ws <;> simp [joinSp, hw]

theorem joinSp_head? {w : Str} (ws : List Str) (hw : w ≠ []) :
    (joinSp (w :: ws)).head? = w.head? := by
  cases ws with
  | nil => rfl
  | cons x xs =>
    show (w ++ ' ' :: joinSp (x :: xs)).head? = w.head?
    rw [List.head?_append]
    rcases w with _ | ⟨a, as⟩
    · simp at hw
    · simp

theorem joinSp_getLast? :
    ∀ (l : List Str), (∀ u ∈ l, u ≠ []) →
      ∀ {w : Str}, l.getLast? = some w → (joinSp l).getLast? = w.getLast? := by
  intro l
  induction l with
  | nil => intro _ w h; simp at h
  | cons u l ih =>
    intro hne w hlast
    cases l with
    | nil =>
      have hw : w = u := by simpa [List.getLast?] using hlast.symm
      subst hw
      rfl
    | cons v vs =>
      rw [List.getLast?_cons_cons] at hlast
      have hvne : ∀ x ∈ v :: vs, x ≠ [] := fun x hx => hne x (List.mem_cons_of_mem _ hx)
      have hIH := ih hvne hlast
      have hwmem : w ∈ v :: vs := List.mem_of_getLast?_eq_some hlast
      have hwne : w ≠ [] := hvne w hwmem
      have hwsome : ∃ a, w.getLast? = some a := by
        rcases hw : w.getLast? with _ | a
        · exact absurd (List.getLast?_eq_none_iff.1 hw) hwne
        · exact ⟨a, rfl⟩
      show (u ++ ' ' :: joinSp (v :: vs)).getLast? = w.getLast?
      rw [List.getLast?_append]
      have h1 : (' ' :: joinSp (v :: vs)).getLast? = w.getLast? := by
        rcases hjl : joinSp (v :: vs) with _ | ⟨a, as⟩
        · exact absurd hjl (joinSp_ne_nil (hvne v (by simp)))
        · rw [List.getLast?_cons_cons]
          rw [hjl] at hIH
          exact hIH
      rw [h1]
      rcases hwsome with ⟨a, ha⟩
      rw [ha]
      rfl

theorem goodWords_map {l : List Str}
    (h : GoodWords l) :
    GoodWords (l.map (fun w => if 2 < w.length then capitalizeWord w else pyLower w)) := by
  intro w hw
  rcases List.mem_map.1 hw with ⟨u, hu, huw⟩
  rcases h u hu with ⟨hune, huc⟩
  subst huw
  by_cases hl : 2 < u.length
  · simp only [hl, if_pos]
    rcases u with _ | ⟨c, cs⟩
    · simp at hune
    · refine ⟨by simp [capitalizeWord], ?_⟩
      intro x hx
      rcases List.mem_cons.1 hx with h1 | h2
      · subst h1
        rw [isSpaceA_toUpperA]
        exact huc c (by simp)
      · rcases List.mem_map.1 h2 with ⟨y, hy, hyx⟩
        subst hyx
        rw [isSpaceA_toLowerA]
        exact huc y (List.mem_cons_of_mem _ hy)
  · simp only [hl, if_neg, not_false_iff]
    refine ⟨by simpa [pyLower] using hune, ?_⟩
    intro x hx
    rcases List.mem_map.1 hx with ⟨y, hy, hyx⟩
    subst hyx
    rw [isSpaceA_toLowerA]
    exact huc y hy

theorem joinSp_head_not_space {l : List Str} (h : GoodWords l) :
    ∀ {c : Char}, (joinSp l).head? = some c → isSpaceA c = false := by
  intro c hc
  cases l with
  | nil => simp [joinSp] at hc
  | cons w ws =>
    rcases h w (by simp) with ⟨hwne, hwc⟩
    rw [joinSp_head? ws hwne] at hc
    rcases List.head?_eq_some_iff.1 hc with ⟨ys, hys⟩
    exact hwc c (by simp [hys])

theorem joinSp_getLast_not_space {l : List Str} (h : GoodWords l) :
    ∀ {c : Char}, (joinSp l).getLast? = some c → isSpaceA c = false := by
  intro c hc
  cases l with
  | nil => simp [joinSp] at hc
  | cons w ws =>
    have hne : ∀ u ∈ w :: ws, u ≠ [] := fun u hu => (h u hu).1
    rcases hlast : (w :: ws).getLast? with _ | u
    · simp at hlast
    · rw [joinSp_getLast? (w :: ws) hne hlast] at hc
      have humem : u ∈ w :: ws := List.mem_of_getLast?_eq_some hlast
      exact (h u humem).2 c (List.mem_of_getLast?_eq_some hc)

/-! Section: Facts about stripping and normalizeTitle -/

theorem mem_pyStrip {c : Char} {s : Str} (hc : c ∈ s) (hsp : isSpaceA c = false) :
    c ∈ pyStrip s := by
  unfold pyStrip pyLstrip pyRstrip
  exact List.mem_reverse.2
    (mem_dropWhile_of_not (List.mem_reverse.2 (mem_dropWhile_of_not hc hsp)) hsp)

theorem mem_pyRstripSet {c : Char} {s set : Str} (hc : c ∈ s)
    (hset : set.contains c = false) : c ∈ pyRstripSet set s := by
  unfold pyRstripSet
  exact List.mem_reverse.2 (mem_dropWhile_of_not (List.mem_reverse.2 hc) hset)

theorem goodWords_pySplitWs (s : Str) : GoodWords (pySplitWs s) :=
  goodWords_pySplitWsF s.length s

theorem normalizeTitle_head_not_space {cand : Str} {c : Char}
    (h : (normalizeTitle cand).head? = some c) : isSpaceA c = false := by
  unfold normalizeTitle at h
  dsimp only at h
  split at h
  · exact joinSp_head_not_space (goodWords_map (goodWords_pySplitWs _)) h
  · exact joinSp_head_not_space (goodWords_pySplitWs _) h

theorem normalizeTitle_getLast_not_space {cand : Str} {c : Char}
    (h : (normalizeTitle cand).getLast? = some c) : isSpaceA c = false := by
  unfold normalizeTitle at h
  dsimp only at h
  split at h
  · exact joinSp_getLast_not_space (goodWords_map (goodWords_pySplitWs _)) h
  · exact joinSp_getLast_not_space (goodWords_pySplitWs _) h

theorem normalizeTitle_ne_nil {cand : Str} {c : Char} (hc : c ∈ cand)
    (h1 : isSpaceA c = false) (h2 : c ≠ ',') (h3 : c ≠ '-') :
    normalizeTitle cand ≠ [] := by
  have hcsp : c ≠ ' ' := by
    intro he; subst he; simp [isSpaceA] at h1
  have hset : (([' ', ',', '-'] : Str).contains c) = false := by
    simp only [List.contains_cons, List.contains_nil, Bool.or_false,
      Bool.or_eq_false_iff, beq_eq_false_iff_ne]
    exact ⟨fun he => hcsp he, fun he => h2 he, fun he => h3 he⟩
  have hc1 : c ∈ pyRstripSet [' ', ',', '-'] (pyStrip cand) :=
    mem_pyRstripSet (mem_pyStrip hc h1) hset
  have hsplit : pySplitWs (pyRstripSet [' ', ',', '-'] (pyStrip cand)) ≠ [] :=
    pySplitWs_ne_nil hc1 h1
  unfold normalizeTitle
  dsimp only
  rcases hws : pySplitWs (pyRstripSet [' ', ',', '-'] (pyStrip cand)) with _ | ⟨w, ws⟩
  · exact absurd hws hsplit
  · have hwne : w ≠ [] := (goodWords_pySplitWs _ w (by rw [hws]; simp)).1
    have hct2 : joinSp (w :: ws) ≠ [] := joinSp_ne_nil hwne
    split
    · -- capitalization branch
      rcases hhd : (joinSp (w :: ws)).head? with _ | a
      · exact absurd (List.head?_eq_none_iff.1 hhd) hct2
      · have hans : isSpaceA a = false :=
          joinSp_head_not_space (by rw [← hws]; exact goodWords_pySplitWs _) hhd
        have hamem : a ∈ joinSp (w :: ws) := by
          rcases List.head?_eq_some_iff.1 hhd with ⟨ys, hys⟩
          rw [hys]; simp
        have hsplit2 : pySplitWs (joinSp (w :: ws)) ≠ [] :=
          pySplitWs_ne_nil hamem hans
        rcases hws2 : pySplitWs (joinSp (w :: ws)) with _ | ⟨w2, ws2⟩
        · exact absurd hws2 hsplit2
        · have hw2 : GoodWords (pySplitWs (joinSp (w :: ws))) := goodWords_pySplitWs _
          rw [hws2] at hw2
          have hw2f := goodWords_map hw2
          have hw2fne :
              (if 2 < w2.length then capitalizeWord w2 else pyLower w2) ≠ [] :=
            (hw2f _ (by simp)).1
          simp only [List.map_cons]
          exact joinSp_ne_nil hw2fne
    · exact hct2

/-! Section: Projection helpers -/

theorem extract_clean_title_fst (raw : Str) :
    (extract_clean_title raw).1 = normalizeTitle (titleCandidate raw) := by
  unfold extract_clean_title titleCandidate
  dsimp only

theorem removeLabelLoop_eq_find? :
    ∀ (ps : List Str) (tc : Str),
      removeLabelLoop ps tc =
        match ps.find? (fun p => (pyUpper p).isPrefixOf (pyUpper tc)) with
        | some p => pyStrip (tc.drop p.length)
        | none => tc := by
  intro ps tc
  induction ps with
  | nil => rfl
  | cons p ps ih =>
    cases h : (pyUpper p).isPrefixOf (pyUpper tc) with
    | true => simp [removeLabelLoop, List.find?_cons, h]
    | false => simp [removeLabelLoop, List.find?_cons, h, ih]

/-! Section: Claim theorems -/

/-- Claim C1 (code bug, evaluation at the failing input): in
`"AB www.example.com, film"` the URL marker matches at offset 3 and the
comma marker at offset 18; `title_end` takes the minimum 3 but
`notes_start` is overwritten to 18, so the segment
`"www.example.com"` between the two markers lands in neither the title
nor the notes, while the claim requires the notes to be exactly the text
from offset 3 onward. -/
theorem C1_code_eval :
    extract_clean_title (("AB www.example.com, film").data) =
      ((("AB").data : Str), (none : Option Str), ((", film").data : Str)) ∧
    findPos urlAt (("AB www.example.com, film").data) = some 3 ∧
    findPos commaMarkerAt (("AB www.example.com, film").data) = some 18 ∧
    stage4 (("AB www.example.com, film").data) = (3, 18) := by
  refine ⟨by decide, by decide, by decide, by decide⟩

/-- Claim C3 counterexample: on the multi-parenthetical example of the
spec the notes are not the claimed
`"(Directors Cut) recommended by Jo"` (with the apostrophe restored):
the trailing remainder keeps its leading comma. -/
theorem C3_counterexample :
    (extract_clean_title c3Input).2.2 ≠
      c3ParenNote ++ (" recommended by Jo").data := by decide

/-- Claim C3 (amended): the parse returns title `"Title"`, year
`"2001"`, and notes consisting of the parenthetical group first and the
trailing remainder second, where the remainder keeps its leading comma:
`"(Directors Cut) , recommended by Jo"` (with the apostrophe restored). -/
theorem C3_amended :
    extract_clean_title c3Input =
      ((("Title").data : Str), some (("2001").data),
        c3ParenNote ++ (" , recommended by Jo").data) := by decide

/-- Claim C4 counterexample: the returned title can carry leading and
trailing punctuation: for input `"...Title!"` the title is
`"...title!"`, which starts with a period and ends with an exclamation
mark. -/
theorem C4_counterexample :
    extract_clean_title (("...Title!").data) =
      ((("...title!").data : Str), (none : Option Str), ([] : Str)) ∧
    ((extract_clean_title (("...Title!").data)).1).head? = some '.' ∧
    ((extract_clean_title (("...Title!").data)).1).getLast? = some '!' := by
  refine ⟨by decide, by decide, by decide⟩

/-- Claim C4 (amended): for every input the returned title is trimmed
(no leading or trailing whitespace); it may retain leading or trailing
punctuation; and it is non-empty whenever the title candidate (the text
before the stage-4 noise boundary) contains a character that is not
whitespace, not a comma and not a dash. -/
theorem C4_amended (raw : Str) :
    (∀ c, ((extract_clean_title raw).1).head? = some c → isSpaceA c = false) ∧
    (∀ c, ((extract_clean_title raw).1).getLast? = some c → isSpaceA c = false) ∧
    ((∃ c ∈ titleCandidate raw, isSpaceA c = false ∧ c ≠ ',' ∧ c ≠ '-') →
      (extract_clean_title raw).1 ≠ []) := by
  refine ⟨?_, ?_, ?_⟩
  · intro c hc
    rw [extract_clean_title_fst] at hc
    exact normalizeTitle_head_not_space hc
  · intro c hc
    rw [extract_clean_title_fst] at hc
    exact normalizeTitle_getLast_not_space hc
  · rintro ⟨c, hmem, h1, h2, h3⟩
    rw [extract_clean_title_fst]
    exact normalizeTitle_ne_nil hmem h1 h2 h3

/-- Witness for C4: the input `"Hello"` has the non-noise character `H`
in its title candidate, and its title is indeed non-empty. -/
theorem C4_amended_witness :
    (∃ c ∈ titleCandidate (("Hello").data),
      isSpaceA c = false ∧ c ≠ ',' ∧ c ≠ '-') ∧
    (extract_clean_title (("Hello").data)).1 ≠ [] :=
  ⟨⟨'H', by decide, by decide, by decide, by decide⟩,
   (C4_amended (("Hello").data)).2.2
     ⟨'H', by decide, by decide, by decide, by decide⟩⟩

/-- Claim C5: the start of the trimmed input is compared
case-insensitively against the fixed ordered prefix list; the first
matching prefix in list order is removed (with surrounding whitespace
stripped) and stripping then stops, so the stacked-prefix input
`"TV: Film: X"` loses only its first prefix. -/
theorem C5_confirmed :
    (∀ title : Str,
      removeLabel title =
        match prefixes.find?
            (fun p => (pyUpper p).isPrefixOf (pyUpper (pyStrip title))) with
        | some p => pyStrip ((pyStrip title).drop p.length)
        | none => pyStrip title) ∧
    removeLabel (("TV: Film: X").data) = ("Film: X").data := by
  constructor
  · intro title
    exact removeLabelLoop_eq_find? prefixes (pyStrip title)
  · decide

/-- Claim C7: the parser is total over arbitrary strings; the empty
input yields an empty title, absent year and empty notes, and the
absence of a pattern leaves each stage as the identity (up to the
unconditional trim of stage 1). -/
theorem C7_confirmed :
    extract_clean_title ([] : Str) = (([] : Str), (none : Option Str), ([] : Str)) ∧
    (∀ t : Str, extract_year t = none → removeYearText (extract_year t) t = t) ∧
    (∀ t : Str, findParen t = none → parenLoop t [] = (t, [])) ∧
    (∀ t : Str,
      prefixes.find? (fun p => (pyUpper p).isPrefixOf (pyUpper (pyStrip t))) = none →
        removeLabel t = pyStrip t) := by
  refine ⟨by decide, ?_, ?_, ?_⟩
  · intro t h
    rw [h]
    rfl
  · intro t h
    unfold parenLoop
    unfold parenLoopF
    rw [h]
  · intro t h
    have heq := removeLabelLoop_eq_find? prefixes (pyStrip t)
    rw [h] at heq
    exact heq

/-- Witness for C7: the graceful-degradation conjuncts applied at the
patternless input `"abc"`. -/
theorem C7_witness :
    removeYearText (extract_year (("abc").data)) (("abc").data) = ("abc").data ∧
    parenLoop (("abc").data) [] = ((("abc").data : Str), ([] : List Str)) ∧
    removeLabel (("abc").data) = pyStrip (("abc").data) :=
  ⟨C7_confirmed.2.1 _ (by decide), C7_confirmed.2.2.1 _ (by decide),
   C7_confirmed.2.2.2 _ (by decide)⟩

/-- Claim C8 (code bug, evaluation at the failing input): in
`"CD www.example.org, film"` the remaining text contains the URL
`www.example.org`, yet the result keeps it in neither the title nor the
notes (the comma marker checked later overwrites `notes_start`), while
the claim requires every URL to be classified into the notes. -/
theorem C8_code_eval :
    extract_clean_title (("CD www.example.org, film").data) =
      ((("CD").data : Str), (none : Option Str), ((", film").data : Str)) ∧
    findPos urlAt (("CD www.example.org, film").data) = some 3 ∧
    stage4 (("CD www.example.org, film").data) = (3, 18) := by
  refine ⟨by decide, by decide, by decide⟩

/-! Section: Parenthetical-loop facts (C9, C10) -/

theorem parenMatchAt_bounds {s : Str} {len : Nat} {content : Str}
    (h : parenMatchAt s = some (len, content)) :
    3 ≤ len ∧ len ≤ s.length ∧ content ≠ [] := by
  unfold parenMatchAt at h
  dsimp only at h
  split at h
  case h_1 c r2 heq =>
    split at h
    case h_1 r4 heq2 =>
      split at h
      · exact absurd h (by simp)
      · rename_i hne
        have hcne : r2.takeWhile (fun c => c ≠ ')') ≠ [] := by
          intro he
          rw [he] at hne
          simp at hne
        injection h with h1
        injection h1 with hlen hcontent
        subst hlen
        subst hcontent
        have e1 : (s.takeWhile isSpaceA).length + (s.dropWhile isSpaceA).length
            = s.length := len_take_drop_while s
        rw [heq] at e1
        have e2 : (r2.takeWhile (fun c => c ≠ ')')).length +
            (r2.dropWhile (fun c => c ≠ ')')).length = r2.length :=
          len_take_drop_while r2
        rw [heq2] at e2
        have e3 : (r4.takeWhile isSpaceA).length + (r4.dropWhile isSpaceA).length
            = r4.length := len_take_drop_while r4
        have hclen : 1 ≤ (r2.takeWhile (fun c => c ≠ ')')).length := by
          rcases hcc : r2.takeWhile (fun c => c ≠ ')') with _ | ⟨x, xs⟩
          · exact absurd hcc hcne
          · simp [hcc]
        refine ⟨?_, ?_, hcne⟩
        · simp only [List.length_cons] at e1 e2
          omega
        · simp only [List.length_cons] at e1 e2
          omega
    case h_2 => exact absurd h (by simp)
  case h_2 => exact absurd h (by simp)

theorem findParen_bounds :
    ∀ {t : Str} {i len : Nat} {content : Str},
      findParen t = some (i, len, content) →
      i + len ≤ t.length ∧ 3 ≤ len ∧ content ≠ [] := by
  intro t
  induction t with
  | nil => intro i len content h; simp [findParen] at h
  | cons c cs ih =>
    intro i len content h
    unfold findParen at h
    rcases hm : parenMatchAt (c :: cs) with _ | ⟨len2, content2⟩ <;> rw [hm] at h
    · rcases hf : findParen cs with _ | ⟨i3, len3, content3⟩ <;> rw [hf] at h
      · exact absurd h (by simp)
      · injection h with h1
        injection h1 with hi h2
        injection h2 with hlen hcontent
        subst hi; subst hlen; subst hcontent
        obtain ⟨hb1, hb2, hb3⟩ := ih hf
        exact ⟨by simp only [List.length_cons]; omega, hb2, hb3⟩
    · injection h with h1
      injection h1 with hi h2
      injection h2 with hlen hcontent
      subst hi; subst hlen; subst hcontent
      obtain ⟨h3, hlen, hc⟩ := parenMatchAt_bounds hm
      exact ⟨by simpa using hlen, h3, hc⟩

/-- Claim C9: the stage-3 loop reaches its fixpoint: when no
parenthetical group matches, the loop stops at once, leaving the text
unchanged and the notes untouched; and every successful match strictly
shortens the running text (the termination measure of the loop). -/
theorem C9_confirmed (text : Str) (notes : List Str) :
    (findParen text = none → parenLoop text notes = (text, notes)) ∧
    (∀ i len content, findParen text = some (i, len, content) →
      (text.take i ++ ' ' :: text.drop (i + len)).length < text.length) := by
  constructor
  · intro h
    unfold parenLoop parenLoopF
    rw [h]
  · intro i len content h
    obtain ⟨hb, h3, _⟩ := findParen_bounds h
    simp only [List.length_append, List.length_cons, List.length_take,
      List.length_drop]
    omega

/-- Witness for C9: the loop is immediate on the parenless text `"abc"`,
and the match on `"a (x) b"` shortens the text. -/
theorem C9_witness :
    parenLoop (("abc").data) [("x").data] = ((("abc").data : Str), [("x").data]) ∧
    ((("a (x) b").data).take 1 ++ ' ' :: (("a (x) b").data).drop (1 + 5)).length <
      (("a (x) b").data).length :=
  ⟨(C9_confirmed _ _).1 (by decide),
   (C9_confirmed (("a (x) b").data) []).2 1 5 (("x").data) (by decide)⟩

/-- Claim C10: the stage-3 loop only extracts parenthetical groups with
at least one character of content; the empty group `()` is never matched
and survives into the final title, while whitespace-only content is
removed from the text but contributes nothing to the notes. -/
theorem C10_confirmed :
    (∀ (t : Str) (i len : Nat) (content : Str),
      findParen t = some (i, len, content) → content ≠ []) ∧
    findParen (("A () B").data) = none ∧
    extract_clean_title (("A () B").data) =
      ((("A () B").data : Str), (none : Option Str), ([] : Str)) ∧
    extract_clean_title (("A (  ) B").data) =
      ((("A B").data : Str), (none : Option Str), ([] : Str)) := by
  refine ⟨?_, by decide, by decide, by decide⟩
  intro t i len content h
  exact (findParen_bounds h).2.2

/-- Witness for C10: the inner content of the match on `"A (x) B"` is
non-empty. -/
theorem C10_witness : (("x").data : Str) ≠ [] :=
  C10_confirmed.1 (("A (x) B").data) 1 5 (("x").data) (by decide)

/-! Section: Year-extraction facts (C2) -/

theorem findParenYear_some :
    ∀ {t : Str} {y : Str}, findParenYear t = some y →
      ∃ i, yearParenAt (t.drop i) = some y ∧
        ∀ j, j < i → yearParenAt (t.drop j) = none := by
  intro t
  induction t with
  | nil => intro y h; simp [findParenYear] at h
  | cons c cs ih =>
    intro y h
    unfold findParenYear at h
    rcases hm : yearParenAt (c :: cs) with _ | y2 <;> rw [hm] at h
    · obtain ⟨i, hi, hj⟩ := ih h
      refine ⟨i + 1, by simpa using hi, ?_⟩
      intro j hj2
      cases j with
      | zero => simpa using hm
      | succ j2 => simpa using hj j2 (by omega)
    · cases h
      exact ⟨0, by simpa using hm, fun j hj => absurd hj (Nat.not_lt_zero j)⟩

theorem findParenYear_none :
    ∀ {t : Str}, findParenYear t = none → ∀ j, yearParenAt (t.drop j) = none := by
  intro t
  induction t with
  | nil => intro _ j; cases j <;> rfl
  | cons c cs ih =>
    intro h j
    unfold findParenYear at h
    rcases hm : yearParenAt (c :: cs) with _ | y2 <;> rw [hm] at h
    · cases j with
      | zero => simpa using hm
      | succ j2 => simpa using ih h j2
    · exact absurd h (by simp)

theorem findParenYear_drop_none {s : Str} (h : findParenYear s = none) (k : Nat) :
    findParenYear (s.drop k) = none := by
  rcases hf : findParenYear (s.drop k) with _ | y
  · rfl
  · obtain ⟨i, hi, _⟩ := findParenYear_some hf
    rw [List.drop_drop] at hi
    rw [findParenYear_none h (k + i)] at hi
    cases hi

theorem subYearParenF_front :
    ∀ (f : Nat) (s p : Str), (∀ c ∈ p, c ≠ ' ') →
      List.IsPrefix p (subYearParenF f s) → List.IsPrefix p s := by
  intro f
  induction f with
  | zero => intro s p _ h; simpa [subYearParenF] using h
  | succ f ih =>
    intro s p hp h
    cases s with
    | nil => simpa [subYearParenF] using h
    | cons c cs =>
      unfold subYearParenF at h
      rcases hm : yearParenWsAt (c :: cs) with _ | rest <;> rw [hm] at h
      · cases p with
        | nil => exact List.nil_prefix
        | cons a p2 =>
          rcases List.cons_prefix_cons.1 h with ⟨ha, h2⟩
          subst ha
          have h3 := ih cs p2 (fun x hx => hp x (List.mem_cons_of_mem _ hx)) h2
          exact List.cons_prefix_cons.2 ⟨rfl, h3⟩
      · cases p with
        | nil => exact List.nil_prefix
        | cons a p2 =>
          rcases List.cons_prefix_cons.1 h with ⟨ha, h2⟩
          exact absurd ha (hp a (by simp))

theorem subYearParenF_noYear :
    ∀ (f : Nat) (s : Str), s.length ≤ f →
      findParenYear (subYearParenF f s) = none := by
  intro f
  induction f with
  | zero =>
    intro s hf
    have hs : s = [] := List.eq_nil_of_length_eq_zero (Nat.le_zero.1 hf)
    subst hs; rfl
  | succ f ih =>
    intro s hf
    cases s with
    | nil => rfl
    | cons c cs =>
      show findParenYear (subYearParenF (f + 1) (c :: cs)) = none
      unfold subYearParenF
      rcases hm : yearParenWsAt (c :: cs) with _ | rest
      · have htail : findParenYear (subYearParenF f cs) = none := by
          apply ih
          simp only [List.length_cons] at hf
          omega
        unfold findParenYear
        rcases hy : yearParenAt (c :: subYearParenF f cs) with _ | y
        · exact htail
        · exfalso
          unfold yearParenAt at hy
          split at hy
          case h_2 => exact absurd hy (by simp)
          case h_1 d1 d2 d3 d4 tail heq =>
            split at hy
            case isFalse => exact absurd hy (by simp)
            case isTrue hdig =>
              injection heq with hc heq2
              subst hc
              have hnospace : ∀ x ∈ [d1, d2, d3, d4, ')'], x ≠ ' ' := by
                simp only [Bool.and_eq_true] at hdig
                intro x hx
                simp only [List.mem_cons, List.not_mem_nil, or_false] at hx
                rcases hx with h | h | h | h | h
                · subst h; exact digit_not_space hdig.1.1.1
                · subst h; exact digit_not_space hdig.1.1.2
                · subst h; exact digit_not_space hdig.1.2
                · subst h; exact digit_not_space hdig.2
                · subst h; decide
              have hpre : List.IsPrefix [d1, d2, d3, d4, ')']
                  (subYearParenF f cs) := ⟨tail, by simpa using heq2.symm⟩
              obtain ⟨r3, hr3⟩ := subYearParenF_front f cs _ hnospace hpre
              have hws : yearParenWsAt ('(' :: cs) = some (r3.dropWhile isSpaceA) := by
                rw [← hr3]
                unfold yearParenWsAt
                rw [List.dropWhile_cons_of_neg (by decide)]
                simp [hdig]
              rw [hws] at hm
              cases hm
      · have hrest : rest.length ≤ f := by
          have h6 : rest.length + 6 ≤ (c :: cs).length := by
            unfold yearParenWsAt at hm
            split at hm
            case h_2 => exact absurd hm (by simp)
            case h_1 d1 d2 d3 d4 rest2 heq =>
              split at hm
              case isFalse => exact absurd hm (by simp)
              case isTrue hdig =>
                injection hm with hm2
                have e1 : ((c :: cs).takeWhile isSpaceA).length +
                    ((c :: cs).dropWhile isSpaceA).length = (c :: cs).length :=
                  len_take_drop_while _
                rw [heq] at e1
                have e2 : (rest2.dropWhile isSpaceA).length ≤ rest2.length :=
                  len_dropWhile_le _
                rw [← hm2]
                simp only [List.length_cons] at e1 ⊢
                omega
          simp only [List.length_cons] at h6 hf
          omega
        unfold findParenYear
        have hsp : yearParenAt (' ' :: subYearParenF f rest) = none := rfl
        rw [hsp]
        exact ih rest hrest

theorem subLeadingYear_drop (s : Str) : ∃ k, subLeadingYear s = s.drop k := by
  unfold subLeadingYear
  split
  case h_1 d1 d2 d3 d4 rest =>
    split
    · refine ⟨4 + (rest.takeWhile isSpaceA).length, ?_⟩
      rw [dropWhile_eq_drop]
      rw [← List.drop_drop]
      rfl
    · exact ⟨0, rfl⟩
  case h_2 => exact ⟨0, rfl⟩

theorem removeYearText_noYear {y t : Str} :
    findParenYear (removeYearText (some y) t) = none := by
  show findParenYear (subLeadingYear (subYearParen t)) = none
  have h1 : findParenYear (subYearParen t) = none :=
    subYearParenF_noYear t.length t (Nat.le_refl _)
  obtain ⟨k, hk⟩ := subLeadingYear_drop (subYearParen t)
  rw [hk]
  exact findParenYear_drop_none h1 k

/-- Claim C2 counterexample: on `"A (1999) (2001)"` the year `1999` is
extracted, but the other parenthesised four-digit group `(2001)` is
removed by the same global substitution and does not survive to stage 3:
the notes come out empty instead of containing `(2001)`. -/
theorem C2_counterexample :
    extract_year (("A (1999) (2001)").data) = some (("1999").data) ∧
    removeYearText (some (("1999").data)) (("A (1999) (2001)").data) =
      ("A  ").data ∧
    extract_clean_title (("A (1999) (2001)").data) =
      ((("A").data : Str), some (("1999").data), ([] : Str)) := by
  refine ⟨by decide, by decide, by decide⟩

/-- Claim C2 (amended): at most one year is extracted, the parenthesised
pattern (leftmost occurrence) is tried before the bare-leading pattern
and only the first satisfied pattern fires; when no year is found the
text is unchanged; when a year is found, the removal pass replaces every
parenthesised four-digit group (with surrounding whitespace) by a single
space and then strips a bare leading year, so that no parenthesised
four-digit group survives into stage 3. -/
theorem C2_amended (text : Str) :
    (∀ y, findParenYear text = some y → extract_year text = some y) ∧
    (findParenYear text = none → extract_year text = leadingYear text) ∧
    (extract_year text = none → removeYearText (extract_year text) text = text) ∧
    (∀ y, findParenYear text = some y →
      ∃ i, yearParenAt (text.drop i) = some y ∧
        ∀ j, j < i → yearParenAt (text.drop j) = none) ∧
    (∀ y, extract_year text = some y →
      removeYearText (some y) text = subLeadingYear (subYearParen text) ∧
      findParenYear (removeYearText (some y) text) = none) := by
  refine ⟨?_, ?_, ?_, ?_, ?_⟩
  · intro y h
    unfold extract_year
    rw [h]
  · intro h
    unfold extract_year
    rw [h]
  · intro h
    rw [h]
    rfl
  · intro y h
    exact findParenYear_some h
  · intro y _
    exact ⟨rfl, removeYearText_noYear⟩

/-- Witness for C2: applied at `"A (1999) x"` (year present) and
`"xyz"` (no year). -/
theorem C2_amended_witness :
    extract_year (("A (1999) x").data) = some (("1999").data) ∧
    (∃ i, yearParenAt ((("A (1999) x").data).drop i) = some (("1999").data) ∧
      ∀ j, j < i → yearParenAt ((("A (1999) x").data).drop j) = none) ∧
    (removeYearText (some (("1999").data)) (("A (1999) x").data) =
        subLeadingYear (subYearParen (("A (1999) x").data)) ∧
      findParenYear
        (removeYearText (some (("1999").data)) (("A (1999) x").data)) = none) ∧
    removeYearText (extract_year (("xyz").data)) (("xyz").data) = ("xyz").data :=
  ⟨(C2_amended _).1 _ (by decide),
   (C2_amended (("A (1999) x").data)).2.2.2.1 _ (by decide),
   (C2_amended (("A (1999) x").data)).2.2.2.2 _ (by decide),
   (C2_amended (("xyz").data)).2.2.1 (by decide)⟩

/-! Section: Stage-5 normalization facts (C6) -/

theorem specCollapseF_nil : ∀ f, specCollapseF f [] = [] := by
  intro f; cases f <;> rfl

theorem specCollapseF_fuel :
    ∀ (f g : Nat) (s : Str), s.length ≤ f → s.length ≤ g →
      specCollapseF f s = specCollapseF g s := by
  intro f
  induction f with
  | zero =>
    intro g s hf _
    have hs : s = [] := List.eq_nil_of_length_eq_zero (Nat.le_zero.1 hf)
    subst hs
    simp [specCollapseF_nil]
  | succ f ih =>
    intro g s hf hg
    cases g with
    | zero =>
      have hs : s = [] := List.eq_nil_of_length_eq_zero (Nat.le_zero.1 hg)
      subst hs
      simp [specCollapseF_nil]
    | succ g =>
      cases s with
      | nil => rfl
      | cons c cs =>
        show specCollapseF (f + 1) (c :: cs) = specCollapseF (g + 1) (c :: cs)
        unfold specCollapseF
        by_cases hc : isSpaceA c = true
        · rw [if_pos hc, if_pos hc]
          rcases hd : cs.dropWhile isSpaceA with _ | ⟨d, ds⟩
          · rfl
          · have hlen : (d :: ds).length ≤ cs.length := by
              rw [← hd]; exact len_dropWhile_le cs
            simp only [List.length_cons] at hf hg hlen
            dsimp only
            rw [ih g (d :: ds) (by simp only [List.length_cons]; omega)
              (by simp only [List.length_cons]; omega)]
        · rw [if_neg hc, if_neg hc]
          simp only [List.length_cons] at hf hg
          rw [ih g cs (by omega) (by omega)]

theorem specCollapseF_cons_space {f : Nat} {c : Char} {cs : Str}
    (hc : isSpaceA c = true) :
    specCollapseF (f + 1) (c :: cs) =
      match cs.dropWhile isSpaceA with
      | [] => []
      | d :: ds => ' ' :: specCollapseF f (d :: ds) := by
  simp only [specCollapseF]
  rw [if_pos hc]

theorem specCollapseF_cons_nonspace {f : Nat} {c : Char} {cs : Str}
    (hc : isSpaceA c = false) :
    specCollapseF (f + 1) (c :: cs) = c :: specCollapseF f cs := by
  simp only [specCollapseF]
  rw [if_neg (by simp [hc])]

theorem specCollapseF_walk :
    ∀ (w r : Str) (f : Nat), (∀ c ∈ w, isSpaceA c = false) →
      r.length + w.length ≤ f →
      specCollapseF f (w ++ r) = w ++ specCollapseF (f - w.length) r := by
  intro w
  induction w with
  | nil => intro r f _ _; simp
  | cons a w ih =>
    intro r f hw hf
    cases f with
    | zero =>
      exfalso
      simp only [List.length_cons] at hf
      omega
    | succ f =>
      have ha : isSpaceA a = false := hw a (by simp)
      have hw2 : ∀ c ∈ w, isSpaceA c = false :=
        fun c hc => hw c (List.mem_cons_of_mem _ hc)
      have hf2 : r.length + w.length ≤ f := by
        simp only [List.length_cons] at hf
        omega
      have hlc : f + 1 - (a :: w).length = f - w.length := by
        simp only [List.length_cons]
        omega
      show specCollapseF (f + 1) (a :: (w ++ r)) = _
      rw [specCollapseF_cons_nonspace ha, hlc, ih r f hw2 hf2, List.cons_append]

theorem joinSp_cons_ne {w : Str} {ws : List Str} (h : ws ≠ []) :
    joinSp (w :: ws) = w ++ ' ' :: joinSp ws := by
  cases ws with
  | nil => exact absurd rfl h
  | cons x xs => rfl

theorem pySplitWsF_cons_ne {f : Nat} {s : Str} {c : Char} {cs : Str}
    (hd : s.dropWhile isSpaceA = c :: cs) (hf : 1 ≤ f) :
    pySplitWsF f s ≠ [] := by
  cases f with
  | zero => omega
  | succ f2 =>
    unfold pySplitWsF
    rw [hd]
    simp

theorem joinSp_split_eq_collapse :
    ∀ (n : Nat) (s : Str), s.length ≤ n →
      joinSp (pySplitWs s) = specCollapse s := by
  intro n
  induction n with
  | zero =>
    intro s hs
    have h : s = [] := List.eq_nil_of_length_eq_zero (Nat.le_zero.1 hs)
    subst h
    rfl
  | succ n ih =>
    intro s hs
    unfold pySplitWs specCollapse
    cases hm : s.length with
    | zero =>
      have h : s = [] := List.eq_nil_of_length_eq_zero hm
      subst h
      rfl
    | succ m =>
      unfold pySplitWsF
      rcases hd : s.dropWhile isSpaceA with _ | ⟨c, cs⟩
      · rw [specCollapseF_nil]
        rfl
      · dsimp only
        have hc : isSpaceA c = false := dropWhile_head_not hd
        have hwr : (c :: cs).takeWhile (fun x => !isSpaceA x) ++
            (c :: cs).dropWhile (fun x => !isSpaceA x) = c :: cs :=
          List.takeWhile_append_dropWhile _ _
        have hgood : ∀ x ∈ (c :: cs).takeWhile (fun x => !isSpaceA x),
            isSpaceA x = false := by
          intro x hx
          have := List.mem_takeWhile_imp hx
          simpa using this
        have hlcc : (c :: cs).length ≤ s.length := by
          rw [← hd]; exact len_dropWhile_le s
        have hww : ((c :: cs).takeWhile (fun x => !isSpaceA x)).length +
            ((c :: cs).dropWhile (fun x => !isSpaceA x)).length
            = (c :: cs).length := len_take_drop_while _
        have hwpos : 1 ≤ ((c :: cs).takeWhile (fun x => !isSpaceA x)).length := by
          rw [List.takeWhile_cons_of_pos (by simp [hc])]
          simp
        have hwalk := specCollapseF_walk
          ((c :: cs).takeWhile (fun x => !isSpaceA x))
          ((c :: cs).dropWhile (fun x => !isSpaceA x))
          (m + 1)
          hgood
          (by rw [Nat.add_comm, hww]; rw [hm] at hlcc; exact hlcc)
        rw [hwr] at hwalk
        rw [hwalk]
        rcases hrest : (c :: cs).dropWhile (fun x => !isSpaceA x) with _ | ⟨e, es⟩
        · rw [specCollapseF_nil, List.append_nil, pySplitWsF_nil]
          rfl
        · rw [hrest] at hww
          have he : isSpaceA e = true := by
            have := dropWhile_head_not hrest
            simpa using this
          have hrlen : (e :: es).length ≤ m := by
            rw [hm] at hlcc
            simp only [List.length_cons] at hww hlcc hwpos ⊢
            omega
          rcases hkk : m + 1 - ((c :: cs).takeWhile (fun x => !isSpaceA x)).length
            with _ | k2
          · exfalso
            rw [hm] at hlcc
            simp only [List.length_cons] at hww hlcc
            omega
          · show joinSp ((c :: cs).takeWhile (fun x => !isSpaceA x)
                :: pySplitWsF m (e :: es)) =
              (c :: cs).takeWhile (fun x => !isSpaceA x) ++
                specCollapseF (k2 + 1) (e :: es)
            rw [specCollapseF_cons_space he]
            rcases hes : es.dropWhile isSpaceA with _ | ⟨d, ds⟩
            · -- the remainder is all whitespace
              have hrest0 : pySplitWsF m (e :: es) = [] := by
                cases m with
                | zero => rfl
                | succ m2 =>
                  unfold pySplitWsF
                  rw [List.dropWhile_cons_of_pos he, hes]
              rw [hrest0]
              simp [joinSp]
            · -- a further word follows
              have hdlen : (d :: ds).length ≤ es.length := by
                rw [← hes]; exact len_dropWhile_le es
              have hdrop : (e :: es).dropWhile isSpaceA = d :: ds := by
                rw [List.dropWhile_cons_of_pos he, hes]
              have hmn : m ≤ n := by
                rw [hm] at hs
                omega
              have hIH : joinSp (pySplitWs (e :: es)) = specCollapse (e :: es) :=
                ih (e :: es) (by omega)
              unfold pySplitWs specCollapse at hIH
              rw [hdrop] at hIH
              have hm1 : 1 ≤ m := by
                simp only [List.length_cons] at hrlen
                omega
              have hne : pySplitWsF m (e :: es) ≠ [] :=
                pySplitWsF_cons_ne hdrop hm1
              rw [joinSp_cons_ne hne]
              dsimp only
              have hsplit_fuel : pySplitWsF m (e :: es) =
                  pySplitWsF (e :: es).length (e :: es) :=
                pySplitWsF_fuel m (e :: es).length (e :: es) hrlen (Nat.le_refl _)
              have hcol_fuel : specCollapseF (e :: es).length (d :: ds) =
                  specCollapseF k2 (d :: ds) := by
                apply specCollapseF_fuel
                · simp only [List.length_cons] at hdlen ⊢
                  omega
                · rw [hm] at hlcc
                  simp only [List.length_cons] at hww hdlen hlcc hkk ⊢
                  omega
              rw [hsplit_fuel, hIH, hcol_fuel]

/-- Claim C6: the stage-5 normalization equals the spec description:
trim the candidate, strip trailing spaces, commas and dashes, collapse
internal whitespace runs to single spaces, and then, unless the result
is entirely uppercase (in which case it is preserved verbatim),
capitalize each word longer than two characters and lowercase the
others. -/
theorem C6_confirmed (candidate : Str) :
    normalizeTitle candidate = specNormalize candidate := by
  unfold normalizeTitle specNormalize
  dsimp only
  rw [joinSp_split_eq_collapse
    (pyRstripSet [' ', ',', '-'] (pyStrip candidate)).length
    (pyRstripSet [' ', ',', '-'] (pyStrip candidate)) (Nat.le_refl _)]
  generalize specCollapse (pyRstripSet [' ', ',', '-'] (pyStrip candidate)) = t
  by_cases hU : pyIsUpper t = true
  · simp [hU]
  · simp only [Bool.not_eq_true] at hU
    cases t with
    | nil => simp [pySplitWs, pySplitWsF_nil, joinSp]
    | cons c cs => simp [hU]

end FilmPlanner
